import Mathlib

/-!
Shallow embedding of `src/lightsout/lightsout.py` (the Lights Out puzzle
engine) and proofs about it.

Conventions of the embedding:
* numpy matrices are `List (List Nat)` (row major); all engine values are
  integers in `{0, 1}` and every operation that the source performs mod 2 is
  performed mod 2 here (`GF2` arithmetic in the source is `int(a) % 2`).
* the in-place Gaussian elimination mutates the local array `data` only; it is
  modelled by explicit state passing over `ElimState`, whose `mat` field is the
  caller's input array and whose `data` field is the local augmented array
  (`np.hstack` copies its inputs, so `data` shares no storage with `mat`).
* `numpy.random.randint` draws in `new_puzzle` are modelled by an explicit
  list of candidate boards; the unbounded `while` loop becomes `List.find?`
  (`none` when no acceptable board occurs in the stream).
* Python exceptions are modelled by `Option`: `none` is a raised error.
-/

namespace LightsOut

/-- Scalar of the Galois field GF(2), mirroring `class GF2`: the constructor
stores `int(a) % 2`.  Python `%` on a positive modulus returns a nonnegative
value, exactly `Int.emod`. -/
structure GF2 where
  value : Nat
deriving Repr, DecidableEq

/-- Constructor `GF2.__init__`: `self.value = int(a) % 2`. -/
def GF2.ofInt (a : Int) : GF2 := ⟨(a % 2).toNat⟩

/-- Method `GF2.__add__`: `GF2(self.value + rhs.value)`. -/
def GF2.add (x y : GF2) : GF2 := GF2.ofInt ((x.value : Int) + (y.value : Int))

/-- Method `GF2.__mul__`: `GF2(self.value * rhs.value)`. -/
def GF2.mul (x y : GF2) : GF2 := GF2.ofInt ((x.value : Int) * (y.value : Int))

/-- Method `GF2.__sub__`: `GF2(self.value - rhs.value)` (Python `int`
subtraction may go negative, then `% 2` reduces to `{0,1}`). -/
def GF2.sub (x y : GF2) : GF2 := GF2.ofInt ((x.value : Int) - (y.value : Int))

/-- Method `GF2.__truediv__`: `GF2(self.value / rhs.value)`.  Python float
division raises `ZeroDivisionError` for `rhs.value = 0` (modelled as `none`);
for `rhs.value = 1` and `self.value ∈ {0,1}` the float quotient is exact and
`int()` truncation returns `self.value / rhs.value` as integer division. -/
def GF2.div (x y : GF2) : Option GF2 :=
  if y.value = 0 then none else some (GF2.ofInt ((x.value / y.value : Nat) : Int))

/-- Function `powerset(iterable)` is built from `itertools.combinations`;
`combinations r s` lists the `r`-element sublists of `s` in the order
`itertools.combinations` emits them (lexicographic by position). -/
def combinations {α : Type} : Nat → List α → List (List α)
  | 0, _ => [[]]
  | _ + 1, [] => []
  | r + 1, x :: xs => (combinations r xs).map (fun t => x :: t) ++ combinations (r + 1) xs

/-- Function `powerset`: `chain.from_iterable(combinations(s, r) for r in
range(len(s) + 1))` — all sublists, ordered by increasing size. -/
def powerset {α : Type} (s : List α) : List (List α) :=
  (List.range (s.length + 1)).flatMap (fun r => combinations r s)

/-- Matrices are row-major lists of rows with integer entries. -/
abbrev Row := List Nat

/-- Row-major matrix. -/
abbrev Mat := List (List Nat)

/-- Expression `numpy.zeros((r, c))` (entries are always 0/1 integers here). -/
def zerosM (r c : Nat) : Mat := List.replicate r (List.replicate c 0)

/-- Expression `numpy.eye(n)`. -/
def eyeM (n : Nat) : Mat :=
  (List.range n).map (fun i => (List.range n).map (fun j => if i = j then 1 else 0))

/-- Statement `m[i, j] = v`. -/
def setEntry (m : Mat) (i j v : Nat) : Mat := m.set i ((m.getD i []).set j v)

/-- Expression `m[i, j]` (out-of-range reads do not occur in the source). -/
def entry (m : Mat) (i j : Nat) : Nat := (m.getD i []).getD j 0

/-- Expression `numpy.hstack([a, b])` for equal row counts; it allocates a new
array, copying both blocks. -/
def hstackM (a b : Mat) : Mat := List.zipWith (· ++ ·) a b

/-- Expression `m.ravel()` (row-major flattening). -/
def ravel (m : Mat) : Row := m.flatten

/-- Expression `np.sum` over a vector of Python ints. -/
def sumR (v : Row) : Nat := v.foldl (· + ·) 0

/-- Expression `np.sum` over an integer matrix. -/
def sumM (m : Mat) : Nat := sumR (ravel m)

/-- Expression `m.T` (numpy transpose); `array([]).T` yields an empty array. -/
def transposeM (m : Mat) : Mat :=
  (List.range ((m.headD []).length)).map (fun j => m.map (fun row => row.getD j 0))

/-- Expression `mat_inv @ vec` (matrix–vector product of int arrays). -/
def matVec (m : Mat) (v : Row) : Row :=
  m.map (fun row => sumR (List.zipWith (· * ·) row v))

/-- Expression `vec @ mat` (vector–matrix product of int arrays). -/
def vecMat (v : Row) (m : Mat) : Row :=
  (List.range ((m.headD []).length)).map
    (fun j => sumR (List.zipWith (fun vi row => vi * row.getD j 0) v m))

/-- Matrix–matrix product of int arrays (used to state algebraic facts about
the engine's matrices). -/
def matMul (a b : Mat) : Mat :=
  a.map (fun row =>
    (List.range ((b.headD []).length)).map
      (fun j => sumR (List.zipWith (fun x rowb => x * rowb.getD j 0) row b)))

/-- Static method `state_transition_matrix_lightsout`, inner stencil: the
`(n+2) × (n+2)` zero grid `vector` with the five assignments for the 1-based
centre `(idx_row, idx_col)`.  The five target cells are pairwise distinct and
all indices are in range (`idx_row`, `idx_col ≥ 1`), so no assignment
overwrites another and Python never sees a negative index. -/
def paddedStencil (n idx_row idx_col : Nat) : Mat :=
  let v := zerosM (n + 2) (n + 2)
  let v := setEntry v (idx_row - 1) (idx_col + 0) 1
  let v := setEntry v (idx_row + 1) (idx_col + 0) 1
  let v := setEntry v (idx_row + 0) (idx_col + 0) 1
  let v := setEntry v (idx_row + 0) (idx_col + 1) 1
  let v := setEntry v (idx_row + 0) (idx_col - 1) 1
  v

/-- Crop `vector[1:n+1, 1:n+1]` of the padded stencil. -/
def stencil (n idx_row idx_col : Nat) : Mat :=
  (((paddedStencil n idx_row idx_col).drop 1).take n).map
    (fun row => (row.drop 1).take n)

/-- Static method `state_transition_matrix_lightsout`: row
`(idx_row - 1) * n + (idx_col - 1)` of the result is the raveled cropped
stencil of centre `(idx_row, idx_col)`; the double loop writes the rows of
`zeros((n*n, n*n))` exactly once each, in increasing row order, so the matrix
is the concatenation of the raveled stencils in loop order. -/
def state_transition_matrix_lightsout (n : Nat) : Mat :=
  (List.range n).flatMap (fun i =>
    (List.range n).map (fun j => ravel (stencil n (i + 1) (j + 1))))

/-- State of `inv_by_gauss_elimination`: the caller's argument `mat` and the
local augmented array `data = GF2array(hstack([mat, eye(n_row)]))`.  Every
assignment in the source body writes into `data`; `mat` is only read once, by
`hstack`, which copies it. -/
structure ElimState where
  mat : Mat
  data : Mat
deriving Repr

/-- Statements `tmp = data[idx_row_src, :].copy(); data[idx_row_src, :] =
data[idx_pivot, :]; data[idx_pivot, :] = tmp` (row swap; only `data` is
written). -/
def stSwap (s : ElimState) (i j : Nat) : ElimState :=
  { s with data := (s.data.set i (s.data.getD j [])).set j (s.data.getD i []) }

/-- Statement `data[idx_row_dst, :] += data[idx_row_src, :] *
data[idx_row_dst, idx_row_src]` where entries are `GF2` scalars: elementwise
`(d + a * c) % 2` with `c` the multiplier read before the update.  Only `data`
is written. -/
def stRowOp (s : ElimState) (dst src : Nat) : ElimState :=
  let c := (s.data.getD dst []).getD src 0
  { s with data := (s.data.set dst
      (List.zipWith (fun d a => (d + a * c) % 2) (s.data.getD dst []) (s.data.getD src []))) }

/-- Body of one iteration of the forward loop `for idx_row_src in
range(n_row - 1)`: search `where(data[idx_row_src:, idx_row_src] == 1)[0]` for
a pivot; if none, increment `n_null_dim`; otherwise swap the pivot row up (if
needed) and add the pivot row into every row below it. -/
def stForwardStep (n_row : Nat) (p : ElimState × Nat) (src : Nat) : ElimState × Nat :=
  let s := p.1
  match ((s.data.drop src).map (fun row => row.getD src 0)).findIdx? (fun x => x == 1) with
  | none => (s, p.2 + 1)
  | some i =>
    let piv := i + src
    let s := if piv ≠ src then stSwap s src piv else s
    let s := (List.range' (src + 1) (n_row - (src + 1))).foldl
      (fun t dst => stRowOp t dst src) s
    (s, p.2)

/-- Forward elimination loop (`# Row echelon form`), threading `n_null_dim`
from 0. -/
def stForward (n_row : Nat) (s : ElimState) : ElimState × Nat :=
  (List.range (n_row - 1)).foldl (stForwardStep n_row) (s, 0)

/-- Backward elimination loop (`# inverse matrix`): `for idx_row_src in
range(n_row - 1, 0, -1): for idx_row_dst in range(idx_row_src - 1, -1, -1)`. -/
def stBackward (n_row : Nat) (s : ElimState) : ElimState :=
  ((List.range' 1 (n_row - 1)).reverse).foldl
    (fun t src => ((List.range src).reverse).foldl (fun u dst => stRowOp u dst src) t) s

/-- Complete state trace of `inv_by_gauss_elimination` on a square input:
initial `data` built by `hstack`, then the forward pass, then the backward
pass (the `n_null_dim` bookkeeping between the passes reads `data` but does
not write it). -/
def elimRun (mat : Mat) : ElimState :=
  stBackward mat.length (stForward mat.length ⟨mat, hstackM mat (eyeM mat.length)⟩).1

/-- Static method `inv_by_gauss_elimination`.  Returns `none` exactly where
the Python raises: the explicit `ValueError` when `n_row != n_col`, and — for
the square size-0 array — the `ValueError` of `np.vectorize` applied to a
size-0 input inside `GF2array` (were that not raised, `data[-1, :n_col]`
would raise `IndexError` on the empty array).  For every other square input
the body runs to completion.

After the forward pass the source tests `np.sum(data[-1, :n_col]) == 0`;
the entries are `GF2` objects, so `np.sum` folds `GF2.__add__` and the test
is a mod-2 parity test of the last row's left block.

The null-space block is `vstack([mat_diag[:n_row - n_null_dim, -n_null_dim:],
GF2array(eye(n_null_dim))])` and the inverse block is `data[-n_row:, -n_col:]`
(negative slices over the `n_row × 2·n_col` array `data`). -/
def inv_by_gauss_elimination (mat : Mat) : Option (Mat × Mat) :=
  let n_row := mat.length
  let n_col := (mat.headD []).length
  if n_row ≠ n_col then none
  else if n_row = 0 then none
  else
    let fwd := stForward n_row ⟨mat, hstackM mat (eyeM n_row)⟩
    let s1 := fwd.1
    let n_null_dim :=
      if (sumR ((s1.data.getD (n_row - 1) []).take n_col)) % 2 = 0 then fwd.2 + 1 else fwd.2
    let s2 := stBackward n_row s1
    let mat_null : Mat :=
      if 0 < n_null_dim then
        ((s2.data.take (n_row - n_null_dim)).map
          (fun row => (row.take n_col).drop (n_col - n_null_dim))) ++ eyeM n_null_dim
      else []
    let mat_inv := s2.data.map (fun row => row.drop (row.length - n_col))
    some (mat_inv, mat_null)

/-- Static method `check_solvable(lights_mat, mat_null)`: when `mat_null` is
nonempty (`len` of a 2-D numpy array is its row count), solvable iff
`np.sum((ravel(lights_mat) @ mat_null) % 2) == 0`. -/
def check_solvable (lights_mat : Mat) (mat_null : Mat) : Bool :=
  if 0 < mat_null.length then
    sumR ((vecMat (ravel lights_mat) mat_null).map (fun x => x % 2)) == 0
  else true

/-- Instance attributes of `class ManageLightsOutPuzzle` (`__init__` sets size
0 and four empty arrays). -/
structure ManageLightsOutPuzzle where
  n_lights_1axis : Nat
  mat_inv : Mat
  mat_null : Mat
  mat_puzzle : Mat
  mat_solution : Mat
deriving Repr, DecidableEq

/-- Constructor `ManageLightsOutPuzzle.__init__`. -/
def mkManager : ManageLightsOutPuzzle := ⟨0, [], [], [], []⟩

/-- Expression `reduce(add, nvs, 0)` followed by `(solution_1st + ·) % 2`:
`reduce` starts from the scalar 0 (numpy broadcasts it over the first null
vector), so the empty combination contributes the zero vector. -/
def candidateOf (solution_1st : Row) (nvs : List Row) : Row :=
  List.zipWith (fun a b => (a + b) % 2) solution_1st
    (nvs.foldl (List.zipWith (· + ·)) (List.replicate solution_1st.length 0))

/-- List comprehension `solutions = [(solution_1st + reduce(add, nvs, 0)) % 2
for nvs in powerset(int32(self.mat_null.T))]` with `solution_1st =
(mat_inv @ puzzle.ravel()) % 2`. -/
def solutionCandidates (mat_inv mat_null : Mat) (puzzle : Mat) : List Row :=
  let solution_1st := (matVec mat_inv (ravel puzzle)).map (fun x => x % 2)
  (powerset (transposeM mat_null)).map (candidateOf solution_1st)

/-- Python `min(solutions, key=lambda x: x.sum())`: left fold, replacing the
current best only on a strictly smaller key, hence the first minimum wins
ties.  `none` for the empty list (which raises in Python; unreachable here
because `powerset` always contains the empty combination). -/
def pyMinBySum : List Row → Option Row
  | [] => none
  | x :: xs => some (xs.foldl (fun best c => if sumR c < sumR best then c else best) x)

/-- Value `solution_final` chosen by `calculate_solution`. -/
def solution_vec (mat_inv mat_null : Mat) (puzzle : Mat) : Row :=
  (pyMinBySum (solutionCandidates mat_inv mat_null puzzle)).getD []

/-- Boolean test `weight of c ≤ sum of r`; `find?` with this predicate
expresses "the first candidate of minimal weight in enumeration order". -/
def leSum (r c : Row) : Bool := decide (sumR c ≤ sumR r)

/-- XOR-combination (iterated mod-2 vector addition) of a list of GF(2)
vectors of length `len`; used to state the minimum-weight claim in its
span-of-the-null-space form. -/
def xorCombo (len : Nat) (l : List Row) : Row :=
  l.foldl (fun acc v => List.zipWith (fun a b => (a + b) % 2) acc v) (List.replicate len 0)

/-- Expression `solution_final.reshape(n, n)` (the source only reshapes
vectors of length exactly `n * n`). -/
def reshape2 (n : Nat) (v : Row) : Mat :=
  (List.range n).map (fun i => (v.drop (i * n)).take n)

/-- Method `calculate_solution`: overwrites `mat_solution` only. -/
def calculate_solution (s : ManageLightsOutPuzzle) : ManageLightsOutPuzzle :=
  { s with mat_solution :=
      reshape2 s.n_lights_1axis (solution_vec s.mat_inv s.mat_null s.mat_puzzle) }

/-- Negation of the `while` condition of `new_puzzle`: a drawn board is kept
iff it passes `check_solvable` and `np.sum` of it is nonzero. -/
def puzzleAccepted (board : Mat) (mat_null : Mat) : Bool :=
  check_solvable board mat_null && sumM board != 0

/-- Method `new_puzzle(n_lights_1axis)`: rebuild the cached
inverse/null-space only when the requested size differs from the cached one,
then keep drawing random boards until one is accepted, then call
`calculate_solution`.  The random draws are an explicit stream; `none` means
either that the stream held no acceptable board (the Python loop would still
be running) or that `inv_by_gauss_elimination` raised (size-0 rebuild). -/
def new_puzzle (s : ManageLightsOutPuzzle) (n : Nat) (draws : List Mat) :
    Option ManageLightsOutPuzzle :=
  let s1opt : Option ManageLightsOutPuzzle :=
    if s.n_lights_1axis ≠ n then
      match inv_by_gauss_elimination (state_transition_matrix_lightsout n) with
      | none => none
      | some (mi, mn) =>
        some { s with n_lights_1axis := n, mat_inv := mi, mat_null := mn }
    else some s
  match s1opt with
  | none => none
  | some s1 =>
    match draws.find? (fun b => puzzleAccepted b s1.mat_null) with
    | none => none
    | some b => some (calculate_solution { s1 with mat_puzzle := b })

/-- Method `count_1_of_solution`. -/
def count_1_of_solution (s : ManageLightsOutPuzzle) : Nat := sumM s.mat_solution

end LightsOut

namespace LightsOut

/-! Basic lemmas about `sumR`. -/

theorem foldl_add_shift (l : List Nat) : ∀ a : Nat, l.foldl (· + ·) a = a + l.foldl (· + ·) 0 := by
  induction l with
  | nil => intro a; simp
  | cons x xs ih =>
    intro a
    simp only [List.foldl_cons]
    rw [ih (a + x), ih (0 + x)]
    omega

theorem sumR_cons (a : Nat) (l : List Nat) : sumR (a :: l) = a + sumR l := by
  simp only [sumR, List.foldl_cons]
  rw [foldl_add_shift]
  omega

theorem sumR_zeros (l : List Nat) (h : ∀ x ∈ l, x = 0) : sumR l = 0 := by
  induction l with
  | nil => rfl
  | cons x xs ih =>
    rw [sumR_cons, h x (by simp), ih (fun y hy => h y (by simp [hy]))]

/-! C7: GF(2) scalar arithmetic is exact mod-2 integer arithmetic. -/

/-- Claim C7: every constructed `GF2` value is in `{0, 1}`, and addition,
subtraction, multiplication and (zero-free) division are exactly the
corresponding integer operations reduced mod 2 — every intermediate value is
an integer reduced mod 2, with no floating-point rounding (the one float
quotient, in `__truediv__`, is by a pivot value 1 on an operand in `{0,1}`,
hence exact, and is modelled by exact integer division). -/
theorem C7_gf2_exact_mod2 (a : Int) (x y : GF2) :
    (GF2.ofInt a).value < 2
    ∧ ((GF2.ofInt a).value : Int) = a % 2
    ∧ (GF2.add x y).value = (x.value + y.value) % 2
    ∧ ((GF2.sub x y).value : Int) = ((x.value : Int) - (y.value : Int)) % 2
    ∧ (GF2.mul x y).value = (x.value * y.value) % 2
    ∧ (y.value ≠ 0 → GF2.div x y = some ⟨x.value / y.value % 2⟩) := by
  refine ⟨?_, ?_, ?_, ?_, ?_, ?_⟩
  · simp only [GF2.ofInt]
    omega
  · simp only [GF2.ofInt]
    omega
  · simp only [GF2.add, GF2.ofInt]
    omega
  · simp only [GF2.sub, GF2.ofInt]
    omega
  · simp only [GF2.mul, GF2.ofInt]
    have : ((x.value : Int) * (y.value : Int)) = ((x.value * y.value : Nat) : Int) := by
      push_cast; ring
    rw [this]
    omega
  · intro hy
    simp only [GF2.div, if_neg hy, GF2.ofInt, Option.some.injEq, GF2.mk.injEq]
    omega

/-- Witness for C7 at a concrete input with the division hypothesis
discharged. -/
theorem C7_witness :
    (GF2.ofInt 3).value < 2 ∧ GF2.div ⟨1⟩ ⟨1⟩ = some ⟨1⟩ := by
  have h := C7_gf2_exact_mod2 3 ⟨1⟩ ⟨1⟩
  exact ⟨h.1, by simpa using h.2.2.2.2.2 (by decide)⟩

end LightsOut

namespace LightsOut

/-! C8: when `inv_by_gauss_elimination` raises. -/

/-- Counterexample to claim C8 as stated: the 0 × 0 array is square
(`n_row = n_col = 0`), yet the call raises (`np.vectorize` on a size-0 input,
and `data[-1, :]` on an empty array would raise either way), modelled by
`none`. -/
theorem C8_counterexample :
    inv_by_gauss_elimination ([] : Mat) = none
    ∧ ([] : Mat).length = (([] : Mat).headD []).length := ⟨rfl, rfl⟩

/-- Claim C8, amended: `inv_by_gauss_elimination` errors if and only if its
input is not square or is of size zero; on every square input with at least
one row it returns the pair (pseudo-inverse, null-space matrix) without
raising. -/
theorem C8_error_iff_nonsquare_or_empty (mat : Mat) :
    inv_by_gauss_elimination mat = none ↔
      mat.length ≠ (mat.headD []).length ∨ mat.length = 0 := by
  unfold inv_by_gauss_elimination
  simp only []
  by_cases h1 : mat.length ≠ (mat.headD []).length
  · rw [if_pos h1]
    exact iff_of_true rfl (Or.inl h1)
  · rw [if_neg h1]
    by_cases h2 : mat.length = 0
    · rw [if_pos h2]
      exact iff_of_true rfl (Or.inr h2)
    · rw [if_neg h2]
      exact iff_of_false (Option.some_ne_none _) (fun h => h.elim h1 h2)

/-! C9: the all-zero board always passes `check_solvable`. -/

theorem zipWith_mul_zeros (g : Row → Nat) (v : Row) (hv : ∀ x ∈ v, x = 0) :
    ∀ (m : Mat), ∀ x ∈ List.zipWith (fun vi row => vi * g row) v m, x = 0 := by
  induction v with
  | nil => simp
  | cons a v' ih =>
    intro m x hx
    cases m with
    | nil => simp at hx
    | cons r m' =>
      simp only [List.zipWith_cons_cons, List.mem_cons] at hx
      rcases hx with h | h
      · rw [h, hv a (by simp), Nat.zero_mul]
      · exact ih (fun y hy => hv y (by simp [hy])) m' x h

theorem ravel_zerosM_mem (r c : Nat) : ∀ x ∈ ravel (zerosM r c), x = 0 := by
  intro x hx
  simp only [ravel, zerosM, List.mem_flatten] at hx
  obtain ⟨l, hl, hxl⟩ := hx
  rw [List.eq_of_mem_replicate hl] at hxl
  exact List.eq_of_mem_replicate hxl

/-- Claim C9: `check_solvable` declares the all-zero board solvable for every
null-space matrix, empty or not; consequently the generation loop rejects the
trivial board only through its separate `np.sum(...) == 0` test, whose
acceptance predicate indeed refuses the zero board. -/
theorem C9_zero_board_always_solvable (n : Nat) (N : Mat) :
    check_solvable (zerosM n n) N = true ∧ puzzleAccepted (zerosM n n) N = false := by
  have hz : ∀ x ∈ ravel (zerosM n n), x = 0 := ravel_zerosM_mem n n
  have hv : ∀ x ∈ vecMat (ravel (zerosM n n)) N, x = 0 := by
    intro x hx
    simp only [vecMat, List.mem_map] at hx
    obtain ⟨j, _, rfl⟩ := hx
    exact sumR_zeros _ (zipWith_mul_zeros _ _ hz N)
  have hcheck : check_solvable (zerosM n n) N = true := by
    unfold check_solvable
    split_ifs with h
    · have hsum : sumR ((vecMat (ravel (zerosM n n)) N).map (fun x => x % 2)) = 0 := by
        apply sumR_zeros
        intro x hx
        simp only [List.mem_map] at hx
        obtain ⟨y, hy, rfl⟩ := hx
        rw [hv y hy]
      simp [hsum]
    · rfl
  have hs : sumM (zerosM n n) = 0 := sumR_zeros _ hz
  refine ⟨hcheck, ?_⟩
  simp [puzzleAccepted, hs, hcheck]

/-! C10: the elimination never writes into its argument. -/

theorem stSwap_mat (s : ElimState) (i j : Nat) : (stSwap s i j).mat = s.mat := rfl

theorem stRowOp_mat (s : ElimState) (dst src : Nat) : (stRowOp s dst src).mat = s.mat := rfl

theorem foldl_elim_mat {β : Type} (f : ElimState → β → ElimState)
    (hf : ∀ s b, (f s b).mat = s.mat) (l : List β) :
    ∀ s : ElimState, (l.foldl f s).mat = s.mat := by
  induction l with
  | nil => intro s; rfl
  | cons b l ih => intro s; rw [List.foldl_cons, ih, hf]

theorem stForwardStep_mat (n_row : Nat) (p : ElimState × Nat) (src : Nat) :
    ((stForwardStep n_row p src).1).mat = p.1.mat := by
  unfold stForwardStep
  cases hfind : ((p.1.data.drop src).map (fun row => row.getD src 0)).findIdx? (fun x => x == 1) with
  | none => simp only [hfind]
  | some i =>
    simp only [hfind]
    rw [foldl_elim_mat (fun t dst => stRowOp t dst src) (fun s b => stRowOp_mat s b src)]
    split_ifs <;> rfl

theorem stForward_mat (n_row : Nat) (s : ElimState) : ((stForward n_row s).1).mat = s.mat := by
  unfold stForward
  generalize (List.range (n_row - 1)) = l
  suffices h : ∀ (p : ElimState × Nat), ((l.foldl (stForwardStep n_row) p).1).mat = p.1.mat by
    exact h (s, 0)
  induction l with
  | nil => intro p; rfl
  | cons b l ih => intro p; rw [List.foldl_cons, ih, stForwardStep_mat]

theorem stBackward_mat (n_row : Nat) (s : ElimState) : (stBackward n_row s).mat = s.mat := by
  unfold stBackward
  apply foldl_elim_mat
  intro t src
  exact foldl_elim_mat _ (fun u dst => stRowOp_mat u dst src) _ t

/-- Claim C10: `inv_by_gauss_elimination` never mutates its argument: through
the whole elimination (forward pass, then backward pass, acting on the local
augmented copy `data` built by `hstack`), the caller's array `mat` is left
with every entry equal to its original value. -/
theorem C10_elim_never_mutates_input (mat : Mat) :
    (elimRun mat).mat = mat ∧ ∀ i j, entry (elimRun mat).mat i j = entry mat i j := by
  have h : (elimRun mat).mat = mat := by
    unfold elimRun
    rw [stBackward_mat, stForward_mat]
  exact ⟨h, fun i j => by rw [h]⟩

/-! C6: cached inverse and null space are reused when the size is unchanged. -/

/-- Claim C6: calling `new_puzzle(n)` when the cached board size already
equals `n` leaves `mat_inv` and `mat_null` (and the cached size) unchanged;
only `mat_puzzle` (the first accepted draw) and `mat_solution` (recomputed
from the cached matrices) are replaced. -/
theorem C6_cache_reused_same_size (s : ManageLightsOutPuzzle) (n : Nat)
    (draws : List Mat) (s2 : ManageLightsOutPuzzle)
    (hn : s.n_lights_1axis = n) (h : new_puzzle s n draws = some s2) :
    s2.mat_inv = s.mat_inv ∧ s2.mat_null = s.mat_null
    ∧ s2.n_lights_1axis = s.n_lights_1axis
    ∧ ∃ b, draws.find? (fun b => puzzleAccepted b s.mat_null) = some b
        ∧ s2.mat_puzzle = b
        ∧ s2.mat_solution =
            reshape2 s.n_lights_1axis (solution_vec s.mat_inv s.mat_null b) := by
  unfold new_puzzle at h
  rw [if_neg (by simp [hn])] at h
  simp only at h
  cases hf : draws.find? (fun b => puzzleAccepted b s.mat_null) with
  | none => rw [hf] at h; exact absurd h (by simp)
  | some b =>
    rw [hf] at h
    simp only [Option.some.injEq] at h
    subst h
    exact ⟨rfl, rfl, rfl, b, rfl, rfl, rfl⟩

end LightsOut

namespace LightsOut

/-- Witness for C6: a concrete call with the cached size already 2 keeps the
cached inverse and null space. -/
theorem C6_witness :
    ((new_puzzle ⟨2, eyeM 4, [], [], []⟩ 2 [[[1, 0], [0, 0]]]).getD mkManager).mat_inv
        = (⟨2, eyeM 4, [], [], []⟩ : ManageLightsOutPuzzle).mat_inv
    ∧ ((new_puzzle ⟨2, eyeM 4, [], [], []⟩ 2 [[[1, 0], [0, 0]]]).getD mkManager).mat_null
        = (⟨2, eyeM 4, [], [], []⟩ : ManageLightsOutPuzzle).mat_null := by
  have h : new_puzzle ⟨2, eyeM 4, [], [], []⟩ 2 [[[1, 0], [0, 0]]]
      = some ((new_puzzle ⟨2, eyeM 4, [], [], []⟩ 2 [[[1, 0], [0, 0]]]).getD mkManager) := by
    decide
  have hc := C6_cache_reused_same_size ⟨2, eyeM 4, [], [], []⟩ 2 [[[1, 0], [0, 0]]]
    ((new_puzzle ⟨2, eyeM 4, [], [], []⟩ 2 [[[1, 0], [0, 0]]]).getD mkManager) rfl h
  exact ⟨hc.1, hc.2.1⟩

end LightsOut

namespace LightsOut

/-! C2: Python `min(solutions, key=sum)` returns the first minimum. -/

theorem minFold_le (l : List Row) : ∀ b : Row,
    sumR (l.foldl (fun best c => if sumR c < sumR best then c else best) b) ≤ sumR b := by
  induction l with
  | nil => intro b; exact le_refl _
  | cons x xs ih =>
    intro b
    rw [List.foldl_cons]
    refine le_trans (ih _) ?_
    split_ifs with h
    · omega
    · exact le_refl _

theorem minFold_le_mem (l : List Row) : ∀ (b x : Row), x ∈ l →
    sumR (l.foldl (fun best c => if sumR c < sumR best then c else best) b) ≤ sumR x := by
  induction l with
  | nil => simp
  | cons y ys ih =>
    intro b x hx
    rw [List.foldl_cons]
    rcases List.mem_cons.mp hx with rfl | hx'
    · refine le_trans (minFold_le ys _) ?_
      split_ifs with h
      · exact le_refl _
      · omega
    · exact ih _ x hx'

theorem minFold_find (l : List Row) : ∀ b : Row,
    (b :: l).find?
        (leSum (l.foldl (fun best c => if sumR c < sumR best then c else best) b)) =
      some (l.foldl (fun best c => if sumR c < sumR best then c else best) b) := by
  induction l with
  | nil =>
    intro b
    simp [leSum]
  | cons x xs ih =>
    intro b
    rw [List.foldl_cons]
    by_cases hxb : sumR x < sumR b
    · rw [if_pos hxb]
      have hr : sumR (xs.foldl (fun best c => if sumR c < sumR best then c else best) x)
          ≤ sumR x := minFold_le xs x
      rw [List.find?_cons_of_neg _ (by simp [leSum]; omega)]
      exact ih x
    · rw [if_neg hxb]
      have hIH := ih b
      by_cases hbr : sumR b ≤ sumR (xs.foldl (fun best c => if sumR c < sumR best then c else best) b)
      · have hb : (leSum (xs.foldl (fun best c => if sumR c < sumR best then c else best) b)) b
            = true := by simp [leSum]; omega
        rw [List.find?_cons_of_pos _ hb] at hIH
        rw [List.find?_cons_of_pos _ hb]
        exact hIH
      · have hb : ¬ ((leSum (xs.foldl (fun best c => if sumR c < sumR best then c else best) b)) b
            = true) := by simp [leSum]; omega
        rw [List.find?_cons_of_neg _ hb] at hIH
        rw [List.find?_cons_of_neg _ hb]
        have hx : ¬ ((leSum (xs.foldl (fun best c => if sumR c < sumR best then c else best) b)) x
            = true) := by
          have h1 : sumR (xs.foldl (fun best c => if sumR c < sumR best then c else best) b)
              ≤ sumR b := minFold_le xs b
          simp [leSum]
          omega
        rw [List.find?_cons_of_neg _ hx]
        exact hIH

theorem pyMin_spec (l : List Row) (r : Row) (h : pyMinBySum l = some r) :
    r ∈ l ∧ (∀ x ∈ l, sumR r ≤ sumR x) ∧ l.find? (leSum r) = some r := by
  cases l with
  | nil => simp [pyMinBySum] at h
  | cons x xs =>
    simp only [pyMinBySum, Option.some.injEq] at h
    subst h
    refine ⟨List.mem_of_find?_eq_some (minFold_find xs x), ?_, minFold_find xs x⟩
    intro y hy
    rcases List.mem_cons.mp hy with rfl | hy'
    · exact minFold_le xs y
    · exact minFold_le_mem xs x y hy'

/-! C2: every sublist of the null vectors occurs in `powerset`. -/

theorem sublist_mem_combinations {α : Type} {l₁ l₂ : List α} (h : l₁.Sublist l₂) :
    l₁ ∈ combinations l₁.length l₂ := by
  induction h with
  | slnil => exact List.mem_singleton.mpr rfl
  | @cons l₃ l₄ a h ih =>
    match l₃, ih with
    | [], _ => exact List.mem_singleton.mpr rfl
    | x :: xs, ih => exact List.mem_append_right _ ih
  | cons₂ a h ih =>
    exact List.mem_append_left _ (List.mem_map_of_mem _ ih)

theorem mem_powerset_of_sublist {α : Type} {l₁ l₂ : List α} (h : l₁.Sublist l₂) :
    l₁ ∈ powerset l₂ := by
  unfold powerset
  rw [List.mem_flatMap]
  refine ⟨l₁.length, ?_, sublist_mem_combinations h⟩
  rw [List.mem_range]
  exact Nat.lt_succ_of_le h.length_le

theorem combinations_zero {α : Type} (s : List α) : combinations 0 s = [[]] := by
  cases s <;> rfl

theorem powerset_eq_cons {α : Type} (s : List α) : ∃ t, powerset s = [] :: t := by
  unfold powerset
  rw [List.range_succ_eq_map, List.flatMap_cons]
  exact ⟨(List.map Nat.succ (List.range s.length)).flatMap (fun r => combinations r s),
    by rw [combinations_zero, List.singleton_append]⟩

/-! C2: auxiliary facts about the chosen solution. -/

theorem solutionCandidates_ne_nil (mat_inv mat_null puzzle : Mat) :
    solutionCandidates mat_inv mat_null puzzle ≠ [] := by
  obtain ⟨t, ht⟩ := powerset_eq_cons (transposeM mat_null)
  simp only [solutionCandidates, ht]
  simp

theorem pyMin_of_ne_nil (l : List Row) (h : l ≠ []) :
    pyMinBySum l = some ((pyMinBySum l).getD []) := by
  cases l with
  | nil => exact absurd rfl h
  | cons x xs => rfl

theorem candidate_mem_solutionCandidates (mat_inv mat_null puzzle : Mat) (nvs : List Row)
    (h : nvs.Sublist (transposeM mat_null)) :
    candidateOf ((matVec mat_inv (ravel puzzle)).map (fun x => x % 2)) nvs
      ∈ solutionCandidates mat_inv mat_null puzzle := by
  simp only [solutionCandidates]
  exact List.mem_map_of_mem _ (mem_powerset_of_sublist h)

theorem flatten_reshape2 : ∀ (j : Nat) (k : Nat) (v : Row), v.length = j * k →
    ((List.range j).map (fun i => (v.drop (i * k)).take k)).flatten = v := by
  intro j
  induction j with
  | zero =>
    intro k v hv
    simp at hv
    subst hv
    simp
  | succ j ih =>
    intro k v hv
    rw [List.range_succ_eq_map]
    simp only [List.map_cons, List.map_map, List.flatten_cons]
    have hmaps : (List.range j).map ((fun i => (v.drop (i * k)).take k) ∘ (fun i => i + 1)) =
        (List.range j).map (fun i => ((v.drop k).drop (i * k)).take k) := by
      apply List.map_congr_left
      intro i _
      simp only [Function.comp]
      rw [List.drop_drop]
      congr 2
      ring
    rw [hmaps, ih k (v.drop k) (by rw [List.length_drop, hv]; ring_nf; omega)]
    simp only [Nat.zero_mul, List.drop_zero]
    exact List.take_append_drop k v

theorem sumM_reshape2 (k : Nat) (v : Row) (h : v.length = k * k) :
    sumM (reshape2 k v) = sumR v := by
  unfold sumM reshape2 ravel
  rw [flatten_reshape2 k k v h]


theorem zip_mod_add_map : ∀ (acc v : Row),
    List.zipWith (fun x y => (x + y) % 2) (acc.map (· % 2)) v =
      (List.zipWith (· + ·) acc v).map (· % 2) := by
  intro acc
  induction acc with
  | nil => intro v; rfl
  | cons a acc ih =>
    intro v
    cases v with
    | nil => rfl
    | cons b v =>
      simp only [List.map_cons, List.zipWith_cons_cons, ih]
      congr 1
      omega

theorem fold_mod_add : ∀ (nvs : List Row) (acc : Row),
    nvs.foldl (fun a v => List.zipWith (fun x y => (x + y) % 2) a v) (acc.map (· % 2)) =
      (nvs.foldl (List.zipWith (· + ·)) acc).map (· % 2) := by
  intro nvs
  induction nvs with
  | nil => intro acc; rfl
  | cons v rest ih =>
    intro acc
    simp only [List.foldl_cons]
    rw [zip_mod_add_map, ih]

theorem xorCombo_eq_foldl_map (len : Nat) (nvs : List Row) :
    xorCombo len nvs = (nvs.foldl (List.zipWith (· + ·)) (List.replicate len 0)).map (· % 2) := by
  unfold xorCombo
  rw [show List.replicate len 0 = (List.replicate len 0).map (· % 2) by simp]
  rw [fold_mod_add]
  rw [show (List.replicate len 0).map (fun x => x % 2) = List.replicate len 0 by simp]

theorem zipWith_mod_add_map_right : ∀ (s l : Row),
    List.zipWith (fun a b => (a + b) % 2) s (l.map (· % 2)) =
      List.zipWith (fun a b => (a + b) % 2) s l := by
  intro s
  induction s with
  | nil => intro l; rfl
  | cons a s ih =>
    intro l
    cases l with
    | nil => rfl
    | cons b l =>
      simp only [List.map_cons, List.zipWith_cons_cons, ih]
      congr 1
      omega

theorem candidateOf_eq_xorCombo (S0 : Row) (nvs : List Row) :
    candidateOf S0 nvs =
      List.zipWith (fun a b => (a + b) % 2) S0 (xorCombo S0.length nvs) := by
  unfold candidateOf
  rw [xorCombo_eq_foldl_map, zipWith_mod_add_map_right]

/-- Claim C2: the solution that `calculate_solution` stores is a candidate of
minimal Hamming weight over the whole affine family: its weight is at most
the weight of `(S₀ + k) mod 2` for `S₀ = (mat_inv · vec(P)) mod 2` and every
combination `k` of columns of the null-space matrix (every sublist `nvs` of
the column list, the integer-sum candidate of the code coinciding with the
XOR-combination form `(S₀ + k) mod 2` by the last conjunct); among the
candidates, it is the first one of minimal weight
in the enumeration order of `powerset` (subsets by increasing size, then in
the order `itertools.combinations` generates them), because Python's `min`
keeps the earliest minimum; `calculate_solution` stores exactly its `n × n`
reshape, whose total weight equals the vector's weight. -/
theorem C2_min_weight_first_encountered (mat_inv mat_null puzzle : Mat) :
    (∀ nvs, nvs.Sublist (transposeM mat_null) →
        sumR (solution_vec mat_inv mat_null puzzle) ≤
          sumR (candidateOf ((matVec mat_inv (ravel puzzle)).map (fun x => x % 2)) nvs))
    ∧ (solutionCandidates mat_inv mat_null puzzle).find?
          (leSum (solution_vec mat_inv mat_null puzzle)) =
        some (solution_vec mat_inv mat_null puzzle)
    ∧ (∀ s : ManageLightsOutPuzzle,
        (calculate_solution s).mat_solution =
          reshape2 s.n_lights_1axis (solution_vec s.mat_inv s.mat_null s.mat_puzzle))
    ∧ (∀ (k : Nat) (v : Row), v.length = k * k → sumM (reshape2 k v) = sumR v)
    ∧ (∀ (S0 : Row) (nvs : List Row), candidateOf S0 nvs =
        List.zipWith (fun a b => (a + b) % 2) S0 (xorCombo S0.length nvs)) := by
  have hsome : pyMinBySum (solutionCandidates mat_inv mat_null puzzle) =
      some (solution_vec mat_inv mat_null puzzle) :=
    pyMin_of_ne_nil _ (solutionCandidates_ne_nil mat_inv mat_null puzzle)
  have hspec := pyMin_spec _ _ hsome
  refine ⟨?_, hspec.2.2, fun s => rfl, fun k v h => sumM_reshape2 k v h,
    fun S0 nvs => candidateOf_eq_xorCombo S0 nvs⟩
  intro nvs hnv
  exact hspec.2.1 _ (candidate_mem_solutionCandidates mat_inv mat_null puzzle nvs hnv)

/-- Witness for C2 at a concrete instance (1 × 1 inverse, one null column),
discharging the sublist and length hypotheses. -/
theorem C2_witness :
    sumR (solution_vec [[1]] [[1]] [[1]]) ≤
        sumR (candidateOf ((matVec [[1]] (ravel [[1]])).map (fun x => x % 2)) [[1]])
    ∧ sumM (reshape2 1 [1]) = sumR [1] := by
  have h := C2_min_weight_first_encountered [[1]] [[1]] [[1]]
  exact ⟨h.1 [[1]] (by decide), h.2.2.2.1 1 [1] rfl⟩

end LightsOut

namespace LightsOut

/-! C5: shape lemmas for the stencil construction. -/

theorem zerosM_length (r c : Nat) : (zerosM r c).length = r := by
  simp [zerosM]

theorem zerosM_rowlen (r c : Nat) : ∀ row ∈ zerosM r c, row.length = c := by
  intro row hrow
  rw [List.eq_of_mem_replicate hrow]
  simp

theorem setEntry_length (m : Mat) (i j v : Nat) : (setEntry m i j v).length = m.length := by
  simp [setEntry]

theorem setEntry_rowlen {m : Mat} {c : Nat} (h : ∀ row ∈ m, row.length = c)
    {i : Nat} (hi : i < m.length) (j v : Nat) :
    ∀ row ∈ setEntry m i j v, row.length = c := by
  intro row hrow
  rcases List.mem_or_eq_of_mem_set hrow with h1 | h1
  · exact h row h1
  · subst h1
    rw [List.length_set, List.getD_eq_getElem m [] hi]
    exact h _ (List.getElem_mem hi)

theorem entry_setEntry {m : Mat} {i : Nat} (hi : i < m.length)
    {j : Nat} (hj : j < (m.getD i []).length) (v : Nat) (a b : Nat) :
    entry (setEntry m i j v) a b = if i = a ∧ j = b then v else entry m a b := by
  unfold entry setEntry
  by_cases hia : i = a
  · subst hia
    have houter : (m.set i ((m.getD i []).set j v)).getD i [] = (m.getD i []).set j v := by
      rw [List.getD_eq_getElem _ _ (by rw [List.length_set]; exact hi), List.getElem_set,
        if_pos rfl]
    rw [houter]
    by_cases hjb : j = b
    · subst hjb
      rw [List.getD_eq_getElem _ _ (by rw [List.length_set]; exact hj), List.getElem_set,
        if_pos rfl, if_pos ⟨rfl, rfl⟩]
    · rw [List.getD_eq_getElem?_getD, List.getElem?_set_ne hjb, ← List.getD_eq_getElem?_getD,
        if_neg (by tauto)]
  · rw [List.getD_eq_getElem?_getD (m.set i _), List.getElem?_set_ne hia,
      ← List.getD_eq_getElem?_getD, if_neg (by tauto)]

theorem paddedStencil_length (n ir ic : Nat) : (paddedStencil n ir ic).length = n + 2 := by
  simp [paddedStencil, setEntry_length, zerosM_length]

theorem paddedStencil_rowlen (n ir ic : Nat) (hir1 : 1 ≤ ir) (hirn : ir ≤ n)
    (_hic1 : 1 ≤ ic) (_hicn : ic ≤ n) :
    ∀ row ∈ paddedStencil n ir ic, row.length = n + 2 := by
  unfold paddedStencil
  refine setEntry_rowlen (setEntry_rowlen (setEntry_rowlen (setEntry_rowlen
    (setEntry_rowlen (zerosM_rowlen _ _) ?_ _ _) ?_ _ _) ?_ _ _) ?_ _ _) ?_ _ _ <;>
    simp [setEntry_length, zerosM_length] <;> omega

end LightsOut

namespace LightsOut

theorem getD_rowlen {m : Mat} {c : Nat} (h : ∀ row ∈ m, row.length = c)
    {i : Nat} (hi : i < m.length) : (m.getD i []).length = c := by
  rw [List.getD_eq_getElem m [] hi]
  exact h _ (List.getElem_mem hi)

theorem entry_zerosM (r c a b : Nat) : entry (zerosM r c) a b = 0 := by
  unfold entry zerosM
  by_cases ha : a < r
  · have houter : (List.replicate r (List.replicate c 0)).getD a [] = List.replicate c 0 := by
      rw [List.getD_eq_getElem _ _ (by simpa using ha), List.getElem_replicate]
    rw [houter]
    by_cases hb : b < c
    · rw [List.getD_eq_getElem _ _ (by simpa using hb), List.getElem_replicate]
    · exact List.getD_eq_default _ _ (by simp; omega)
  · have houter : (List.replicate r (List.replicate c 0)).getD a [] = [] :=
      List.getD_eq_default _ _ (by simp; omega)
    rw [houter]
    rfl

theorem entry_paddedStencil (n ir ic a b : Nat)
    (hir1 : 1 ≤ ir) (hirn : ir ≤ n) (hic1 : 1 ≤ ic) (hicn : ic ≤ n) :
    entry (paddedStencil n ir ic) a b =
      if (a = ir - 1 ∧ b = ic) ∨ (a = ir + 1 ∧ b = ic) ∨ (a = ir ∧ b = ic)
          ∨ (a = ir ∧ b = ic + 1) ∨ (a = ir ∧ b = ic - 1) then 1 else 0 := by
  simp only [paddedStencil]
  set M0 := zerosM (n + 2) (n + 2) with hM0
  set M1 := setEntry M0 (ir - 1) (ic + 0) 1 with hM1
  set M2 := setEntry M1 (ir + 1) (ic + 0) 1 with hM2
  set M3 := setEntry M2 (ir + 0) (ic + 0) 1 with hM3
  set M4 := setEntry M3 (ir + 0) (ic + 1) 1 with hM4
  have L0 : M0.length = n + 2 := zerosM_length _ _
  have L1 : M1.length = n + 2 := by rw [hM1, setEntry_length, L0]
  have L2 : M2.length = n + 2 := by rw [hM2, setEntry_length, L1]
  have L3 : M3.length = n + 2 := by rw [hM3, setEntry_length, L2]
  have L4 : M4.length = n + 2 := by rw [hM4, setEntry_length, L3]
  have r0 : ∀ row ∈ M0, row.length = n + 2 := zerosM_rowlen _ _
  have r1 : ∀ row ∈ M1, row.length = n + 2 := by
    rw [hM1]; exact setEntry_rowlen r0 (by rw [L0]; omega) _ _
  have r2 : ∀ row ∈ M2, row.length = n + 2 := by
    rw [hM2]; exact setEntry_rowlen r1 (by rw [L1]; omega) _ _
  have r3 : ∀ row ∈ M3, row.length = n + 2 := by
    rw [hM3]; exact setEntry_rowlen r2 (by rw [L2]; omega) _ _
  have r4 : ∀ row ∈ M4, row.length = n + 2 := by
    rw [hM4]; exact setEntry_rowlen r3 (by rw [L3]; omega) _ _
  rw [entry_setEntry (show ir + 0 < M4.length by rw [L4]; omega)
      (show ic - 1 < (M4.getD (ir + 0) []).length by
        rw [getD_rowlen r4 (by rw [L4]; omega)]; omega) 1 a b]
  rw [hM4]
  rw [entry_setEntry (show ir + 0 < M3.length by rw [L3]; omega)
      (show ic + 1 < (M3.getD (ir + 0) []).length by
        rw [getD_rowlen r3 (by rw [L3]; omega)]; omega) 1 a b]
  rw [hM3]
  rw [entry_setEntry (show ir + 0 < M2.length by rw [L2]; omega)
      (show ic + 0 < (M2.getD (ir + 0) []).length by
        rw [getD_rowlen r2 (by rw [L2]; omega)]; omega) 1 a b]
  rw [hM2]
  rw [entry_setEntry (show ir + 1 < M1.length by rw [L1]; omega)
      (show ic + 0 < (M1.getD (ir + 1) []).length by
        rw [getD_rowlen r1 (by rw [L1]; omega)]; omega) 1 a b]
  rw [hM1]
  rw [entry_setEntry (show ir - 1 < M0.length by rw [L0]; omega)
      (show ic + 0 < (M0.getD (ir - 1) []).length by
        rw [getD_rowlen r0 (by rw [L0]; omega)]; omega) 1 a b]
  rw [hM0, entry_zerosM]
  split_ifs <;> omega

end LightsOut

namespace LightsOut

/-! C5: indexing the flattened construction. -/

theorem getD_flatten_uniform {α : Type} (d : α) :
    ∀ (L : List (List α)) (m : Nat), (∀ l ∈ L, l.length = m) →
      ∀ i j : Nat, i < L.length → j < m →
      L.flatten.getD (i * m + j) d = (L.getD i []).getD j d := by
  intro L
  induction L with
  | nil =>
    intro m hm i j hi hj
    simp at hi
  | cons l L ih =>
    intro m hm i j hi hj
    rw [List.flatten_cons]
    cases i with
    | zero =>
      simp only [Nat.zero_mul, Nat.zero_add]
      have hl : l.length = m := hm l (by simp)
      rw [List.getD_append _ _ _ _ (by omega)]
      rfl
    | succ k =>
      have hl : l.length = m := hm l (by simp)
      have hidx : (k + 1) * m + j = l.length + (k * m + j) := by rw [hl]; ring
      rw [hidx, List.getD_append_right _ _ _ _ (by omega)]
      have hsub : l.length + (k * m + j) - l.length = k * m + j := by omega
      rw [hsub]
      have hk : k < L.length := by
        simp only [List.length_cons] at hi
        omega
      rw [ih m (fun x hx => hm x (by simp [hx])) k j hk hj]
      rfl

theorem stencil_length (n ir ic : Nat) : (stencil n ir ic).length = n := by
  unfold stencil
  simp only [List.length_map, List.length_take, List.length_drop, paddedStencil_length]
  omega

theorem stencil_rowlen (n ir ic : Nat) (hir1 : 1 ≤ ir) (hirn : ir ≤ n) (hic1 : 1 ≤ ic)
    (hicn : ic ≤ n) : ∀ row ∈ stencil n ir ic, row.length = n := by
  intro row hrow
  simp only [stencil, List.mem_map] at hrow
  obtain ⟨row0, hrow0, rfl⟩ := hrow
  have h0 : row0.length = n + 2 :=
    paddedStencil_rowlen n ir ic hir1 hirn hic1 hicn row0
      (List.mem_of_mem_drop (List.mem_of_mem_take hrow0))
  simp only [List.length_take, List.length_drop, h0]
  omega

theorem entry_stencil (n ir ic a b : Nat) (hir1 : 1 ≤ ir) (hirn : ir ≤ n) (hic1 : 1 ≤ ic)
    (hicn : ic ≤ n) (ha : a < n) (hb : b < n) :
    entry (stencil n ir ic) a b = entry (paddedStencil n ir ic) (a + 1) (b + 1) := by
  have hPlen := paddedStencil_length n ir ic
  have hProw := paddedStencil_rowlen n ir ic hir1 hirn hic1 hicn
  have h1a : 1 + a < (paddedStencil n ir ic).length := by rw [hPlen]; omega
  have ha1 : a + 1 < (paddedStencil n ir ic).length := by rw [hPlen]; omega
  have hrowlen : ((paddedStencil n ir ic)[1 + a]).length = n + 2 :=
    hProw _ (List.getElem_mem h1a)
  have hrowlen2 : ((paddedStencil n ir ic)[a + 1]).length = n + 2 :=
    hProw _ (List.getElem_mem ha1)
  have hmaplen : ((((paddedStencil n ir ic).drop 1).take n).map
      (fun row => (row.drop 1).take n)).length = n := by
    simp only [List.length_map, List.length_take, List.length_drop, hPlen]
    omega
  have houter : ((((paddedStencil n ir ic).drop 1).take n).map
      (fun row => (row.drop 1).take n)).getD a [] =
      (((paddedStencil n ir ic)[1 + a]).drop 1).take n := by
    rw [List.getD_eq_getElem _ _ (by rw [hmaplen]; exact ha), List.getElem_map,
      List.getElem_take, List.getElem_drop]
  have hinner : ((((paddedStencil n ir ic)[1 + a]).drop 1).take n).getD b 0 =
      ((paddedStencil n ir ic)[1 + a])[1 + b] := by
    rw [List.getD_eq_getElem _ _ (by
        simp only [List.length_take, List.length_drop, hrowlen]
        omega), List.getElem_take, List.getElem_drop]
  have hr1 : (paddedStencil n ir ic).getD (a + 1) [] = (paddedStencil n ir ic)[a + 1] :=
    List.getD_eq_getElem _ _ ha1
  have hb1 : b + 1 < ((paddedStencil n ir ic)[a + 1]).length := by rw [hrowlen2]; omega
  have hr2 : ((paddedStencil n ir ic)[a + 1]).getD (b + 1) 0 =
      ((paddedStencil n ir ic)[a + 1])[b + 1] :=
    List.getD_eq_getElem _ _ hb1
  unfold entry stencil
  rw [houter, hinner, hr1, hr2]
  simp only [show 1 + a = a + 1 from Nat.add_comm 1 a, show 1 + b = b + 1 from Nat.add_comm 1 b]

theorem T_length (n : Nat) : (state_transition_matrix_lightsout n).length = n * n := by
  unfold state_transition_matrix_lightsout
  rw [List.length_flatMap]
  have hrep : List.map (List.length ∘ fun i => (List.range n).map
      (fun j => ravel (stencil n (i + 1) (j + 1)))) (List.range n) = List.replicate n n := by
    rw [List.eq_replicate_iff]
    constructor
    · simp
    · intro x hx
      simp only [List.mem_map, Function.comp] at hx
      obtain ⟨y, _, rfl⟩ := hx
      simp
  rw [hrep, List.sum_replicate, smul_eq_mul]

theorem T_getD (n i j : Nat) (hi : i < n) (hj : j < n) :
    (state_transition_matrix_lightsout n).getD (i * n + j) [] =
      ravel (stencil n (i + 1) (j + 1)) := by
  unfold state_transition_matrix_lightsout
  rw [List.flatMap_def]
  have hm : ∀ l ∈ (List.range n).map (fun i => (List.range n).map
      (fun j => ravel (stencil n (i + 1) (j + 1)))), l.length = n := by
    intro l hl
    simp only [List.mem_map] at hl
    obtain ⟨x, _, rfl⟩ := hl
    simp
  rw [getD_flatten_uniform [] _ n hm i j (by simp [hi]) hj]
  have houter : ((List.range n).map (fun i => (List.range n).map
      (fun j => ravel (stencil n (i + 1) (j + 1))))).getD i [] =
      (List.range n).map (fun j => ravel (stencil n (i + 1) (j + 1))) := by
    rw [List.getD_eq_getElem _ _ (by simp [hi]), List.getElem_map, List.getElem_range]
  rw [houter, List.getD_eq_getElem _ _ (by simp [hj]), List.getElem_map, List.getElem_range]

theorem entry_T (n i j a b : Nat) (hi : i < n) (hj : j < n) (ha : a < n) (hb : b < n) :
    entry (state_transition_matrix_lightsout n) (i * n + j) (a * n + b) =
      entry (paddedStencil n (i + 1) (j + 1)) (a + 1) (b + 1) := by
  have h1 : entry (state_transition_matrix_lightsout n) (i * n + j) (a * n + b) =
      (ravel (stencil n (i + 1) (j + 1))).getD (a * n + b) 0 := by
    unfold entry
    rw [T_getD n i j hi hj]
  have h2 : (ravel (stencil n (i + 1) (j + 1))).getD (a * n + b) 0 =
      entry (stencil n (i + 1) (j + 1)) a b := by
    unfold ravel entry
    exact getD_flatten_uniform 0 _ n
      (stencil_rowlen n (i + 1) (j + 1) (by omega) (by omega) (by omega) (by omega))
      a b (by rw [stencil_length]; exact ha) hb
  rw [h1, h2]
  exact entry_stencil n (i + 1) (j + 1) a b (by omega) (by omega) (by omega) (by omega) ha hb

/-- Claim C5: for every board size `n ≥ 2` the transition matrix built by
`state_transition_matrix_lightsout` is symmetric: the entry at row `i`,
column `j` equals the entry at row `j`, column `i` for all `i, j < n²`
(pressing cell `j` toggles cell `i` exactly when pressing `i` toggles `j`,
because the neighbourhood relation of the cropped stencil is symmetric). -/
theorem C5_transition_matrix_symmetric (n i j : Nat) (hn : 2 ≤ n)
    (hi : i < n * n) (hj : j < n * n) :
    entry (state_transition_matrix_lightsout n) i j =
      entry (state_transition_matrix_lightsout n) j i := by
  have hn0 : 0 < n := by omega
  obtain ⟨i1, i2, hi12, hi1, hi2⟩ : ∃ i1 i2, i = i1 * n + i2 ∧ i1 < n ∧ i2 < n :=
    ⟨i / n, i % n, by rw [Nat.mul_comm]; exact (Nat.div_add_mod i n).symm,
      (Nat.div_lt_iff_lt_mul hn0).mpr hi, Nat.mod_lt _ hn0⟩
  obtain ⟨j1, j2, hj12, hj1, hj2⟩ : ∃ j1 j2, j = j1 * n + j2 ∧ j1 < n ∧ j2 < n :=
    ⟨j / n, j % n, by rw [Nat.mul_comm]; exact (Nat.div_add_mod j n).symm,
      (Nat.div_lt_iff_lt_mul hn0).mpr hj, Nat.mod_lt _ hn0⟩
  subst hi12
  subst hj12
  rw [entry_T n i1 i2 j1 j2 hi1 hi2 hj1 hj2, entry_T n j1 j2 i1 i2 hj1 hj2 hi1 hi2]
  rw [entry_paddedStencil n (i1 + 1) (i2 + 1) (j1 + 1) (j2 + 1)
      (by omega) (by omega) (by omega) (by omega),
    entry_paddedStencil n (j1 + 1) (j2 + 1) (i1 + 1) (i2 + 1)
      (by omega) (by omega) (by omega) (by omega)]
  split_ifs <;> omega

/-- Witness for C5: a concrete symmetric pair of entries at `n = 2`. -/
theorem C5_witness :
    entry (state_transition_matrix_lightsout 2) 0 1 =
      entry (state_transition_matrix_lightsout 2) 1 0 :=
  C5_transition_matrix_symmetric 2 0 1 (by decide) (by decide) (by decide)

end LightsOut
